import Mathlib

/-!
Verification of pyDVL core utilities against their specification.

The definitions below are a shallow embedding of the repository's code:

* `src/pydvl/utils/types.py` — seed handling (`ensure_seed_sequence`,
  `call_fn_multiple_seeds`), keyword-argument adaptation
  (`call_fun_remove_arg`, `maybe_add_argument`) and the
  `NoPublicConstructor` metaclass.
* the Hoeffding stopping bound and the Monte Carlo Shapley estimators,
  whose code is not part of the visible slice, are modelled from the
  specification (each such definition says so in its doc comment).

Python objects are modelled with value semantics: a `SeedSequence` is the
record of the data the visible code reads or constructs, keyword-argument
dictionaries are association lists with distinct keys, callables are
records pairing the set of accepted keyword-parameter names with the
call behaviour, and an in-place mutation performed by a callee is
modelled by the callee returning the post-call value of its argument.
Numbers handled by the estimators are rationals; the Hoeffding bound,
which involves a logarithm, is modelled over the reals.
-/

/-! ## Seed handling (`src/pydvl/utils/types.py`, lines 117–158) -/

/-- Model of `numpy.random.SeedSequence` as the visible code uses it: the
code only ever constructs one from an optional integer entropy
(`SeedSequence(seed)` with `seed : Optional[int]`) or passes one through
unchanged. -/
structure SeedSequence where
  entropy : Option Int
deriving DecidableEq, Repr

/-- Model of a numpy `BitGenerator`: the code reads only its
`seed_seq` attribute (`seed.bit_generator.seed_seq`). -/
structure BitGenerator where
  seed_seq : SeedSequence
deriving DecidableEq, Repr

/-- Model of `numpy.random.Generator`: the code reads only its
`bit_generator` attribute. -/
structure Generator where
  bit_generator : BitGenerator
deriving DecidableEq, Repr

/-- The non-`None` inputs accepted by `ensure_seed_sequence`:
`Seed = Union[int, Generator]` together with `SeedSequence`. -/
inductive SeedLike where
  | int (n : Int)
  | generator (g : Generator)
  | seedSeq (s : SeedSequence)
deriving DecidableEq, Repr

/-- Embedding of `ensure_seed_sequence` (types.py, lines 120–139): a
`SeedSequence` is returned as is; from a `Generator` the seed sequence of
its bit generator is extracted; otherwise a new `SeedSequence` is
constructed from the optional integer seed. -/
def ensure_seed_sequence : Option SeedLike → SeedSequence
  | some (.seedSeq s) => s
  | some (.generator g) => g.bit_generator.seed_seq
  | some (.int n) => ⟨some n⟩
  | none => ⟨none⟩

/-! ## `call_fn_multiple_seeds` (types.py, lines 142–158)

The Python function evaluates
`tuple(fn(*deepcopy(args), **deepcopy(kwargs), seed=seed) for seed in seeds)`.
A callee that may mutate its arguments in place is modelled as a function
returning, besides its result, the post-call values of the argument
objects it received.  `deepcopy` hands the callee a fresh object whose
value equals the original, so each call receives the caller's original
argument values and the mutated copies are discarded.  The embedding
returns, alongside the result tuple, the caller's `args` and `kwargs`
objects as they stand after the call. -/

/-- Value-semantics model of `copy.deepcopy`: the fresh copy has the same
value as the original (the point of the copy is that the original is not
the object handed to the callee, which the caller of
`call_fn_multiple_seeds` observes as its arguments keeping their values). -/
def deepcopy {α : Type _} (a : α) : α := a

/-- Embedding of `call_fn_multiple_seeds` (types.py, lines 142–158).
`fn a k s` returns `(result, args after the call, kwargs after the call)`;
the source passes deep copies to `fn`, discards the mutated copies, and
leaves the caller's objects untouched. -/
def call_fn_multiple_seeds {A K R σ : Type _}
    (fn : A → K → σ → R × A × K) (args : A) (kwargs : K)
    (seeds : List σ) : List R × A × K :=
  ((seeds.map fun s => (fn (deepcopy args) (deepcopy kwargs) s).1), args, kwargs)

/-! ## Keyword-argument adaptation (types.py, lines 49–89) -/

/-- Model of a Python callable as the code manipulates it: the list of
keyword-parameter names its signature accepts, and its behaviour on a
tuple of positional arguments and a keyword-argument dictionary
(modelled as an association list whose keys are distinct in any actual
call). -/
structure PyFunction (V R : Type _) where
  params : List String
  call : List V → List (String × V) → R

/-- Modelled from the spec: `fn_accepts_param_name` (imported by
types.py from `pydvl.utils.functional`, which is not in the visible
slice) inspects a callable's signature and reports whether it accepts a
keyword parameter with the given name. -/
def fn_accepts_param_name {V R : Type _} (f : PyFunction V R) (name : String) : Bool :=
  f.params.contains name

/-- Embedding of `call_fun_remove_arg` (types.py, lines 49–67): delete
the entry named `arg` from the keyword arguments if present (Python's
`del kwargs[arg]` guarded by `except KeyError: pass`), then call `fun`
with the positional arguments and the remaining keyword arguments. -/
def call_fun_remove_arg {V R : Type _} (args : List V) (f : PyFunction V R)
    (arg : String) (kwargs : List (String × V)) : R :=
  f.call args (kwargs.eraseP fun p => p.1 == arg)

/-- Embedding of `maybe_add_argument` (types.py, lines 70–89): if `fun`
already takes a keyword parameter named `new_arg` it is returned as is;
otherwise the result is the wrapper
`functools.partial(call_fun_remove_arg, fun=fun, arg=new_arg)`, which
accepts `new_arg` (and any keyword) and merely drops it before calling
`fun`. -/
def maybe_add_argument {V R : Type _} (f : PyFunction V R) (new_arg : String) :
    PyFunction V R :=
  if fn_accepts_param_name f new_arg then f
  else ⟨f.params ++ [new_arg], fun args kwargs => call_fun_remove_arg args f new_arg kwargs⟩

/-! ## `NoPublicConstructor` (types.py, lines 92–114)

The metaclass overrides `__call__` to raise `TypeError` unconditionally
and exposes `create`, which delegates to `super().__call__` — the normal
construction path.  A class using the metaclass is modelled as a record
of its module name, qualified name and underlying construction path;
raising is modelled with `Except`. -/

/-- Model of a class whose metaclass is `NoPublicConstructor`:
`construct` is the normal construction path (`type.__call__`), producing
an instance from the call arguments. -/
structure PyClass (V α : Type _) where
  modName : String
  qualName : String
  construct : List V → α

/-- Embedding of `NoPublicConstructor.__call__` (types.py, lines
107–111): every direct instantiation raises
`TypeError(f"{cls.__module__}.{cls.__qualname__} cannot be initialized
directly. Use the proper factory instead.")` and never touches the
construction path. -/
def NoPublicConstructor.directCall {V α : Type _} (cls : PyClass V α)
    (_args : List V) : Except String α :=
  .error (cls.modName ++ "." ++ cls.qualName ++
    " cannot be initialized directly. Use the proper factory instead.")

/-- Embedding of `NoPublicConstructor.create` (types.py, lines 113–114):
delegates to `super().__call__(*args, **kwargs)`, the normal construction
path, and returns the instance. -/
def NoPublicConstructor.create {V α : Type _} (cls : PyClass V α)
    (args : List V) : Except String α :=
  .ok (cls.construct args)

/-! ## The Hoeffding stopping bound

The function `lower_bound_hoeffding` lives in `pydvl/utils/numeric.py`,
which is not part of the visible slice (the tests import and exercise
it).  It is therefore modelled from the specification, over the reals. -/

/-- Modelled from the spec: `lower_bound_hoeffding(delta, eps,
score_range)` (in `pydvl.utils.numeric`, absent from the visible slice)
returns `ceil( (score_range^2 * ln(2/delta)) / (2 * eps^2) )`, the
minimum number of independent samples for the two-sided Hoeffding
inequality at confidence `1 - delta` and accuracy `eps`. -/
noncomputable def lower_bound_hoeffding (delta eps score_range : ℝ) : ℤ :=
  ⌈score_range ^ 2 * Real.log (2 / delta) / (2 * eps ^ 2)⌉

/-- The two-sided Hoeffding tail bound for the mean of `m` independent
samples of a quantity with range `score_range`:
`P(|estimate - mean| > eps) ≤ 2 * exp(-2 * m * eps^2 / score_range^2)`.
A sample count `m` meets the `(delta, eps)` requirement exactly when this
bound is at most `delta`. -/
noncomputable def hoeffdingTail (m : ℤ) (eps score_range : ℝ) : ℝ :=
  2 * Real.exp (-(2 * (m : ℝ) * eps ^ 2) / score_range ^ 2)

/-! ## Monte Carlo Shapley estimators

The estimators live in `pydvl/value/shapley/montecarlo.py`, which is not
part of the visible slice (the tests import and exercise them).  They
are modelled from the specification.  Randomness is passed explicitly:
an estimator receives the list of random draws (permutations, subsets,
…) that a run with `max_iterations` iterations would make, and a
well-formed run supplies `max_iterations` draws.  Utilities are set
functions `Finset (Fin n) → ℚ`.  Every estimator rejects
`max_iterations = 0` before evaluating the utility on anything. -/

/-- The error raised when an estimator is invoked with
`max_iterations = 0`; per the spec a configuration error that fails fast
before any sampling begins. -/
def configurationError : String :=
  "ConfigurationError: max_iterations must be at least 1"

/-- The players of the permutation `l` that precede the first occurrence
of `i` (the prefix walked before `i` is reached). -/
def playersBefore {n : ℕ} (l : List (Fin n)) (i : Fin n) : List (Fin n) :=
  l.takeWhile fun x => x ≠ i

/-- Marginal contribution of player `i` in the permutation `l`:
`u(prefix ∪ {i}) - u(prefix)` where `prefix` is the set of players
walked before `i`; a player that does not occur contributes `0`. -/
def marginal {n : ℕ} (u : Finset (Fin n) → ℚ) (l : List (Fin n)) (i : Fin n) : ℚ :=
  if i ∈ l then
    u (insert i (playersBefore l i).toFinset) - u (playersBefore l i).toFinset
  else 0

/-- Modelled from the spec: the per-index reduction of permutation Monte
Carlo — the average over the sampled permutations of the index's
marginal contribution. -/
def permutationShapleyEstimate {n : ℕ} (u : Finset (Fin n) → ℚ)
    (perms : List (List (Fin n))) : Fin n → ℚ :=
  fun i => ((perms.map fun l => marginal u l i).sum) / perms.length

/-- Modelled from the spec: `permutation_montecarlo_shapley` (in
`pydvl.value.shapley.montecarlo`, absent from the visible slice) draws
`max_iterations` uniformly random permutations and averages each index's
marginal contributions; `max_iterations = 0` is rejected as a
configuration error before any sampling.  `perms` is the sequence of
permutations a run draws. -/
def permutation_montecarlo_shapley {n : ℕ} (u : Finset (Fin n) → ℚ)
    (max_iterations : ℕ) (perms : List (List (Fin n))) :
    Except String (Fin n → ℚ) :=
  if max_iterations = 0 then .error configurationError
  else .ok (permutationShapleyEstimate u perms)

/-- Modelled from the spec: the combinatorial Shapley kernel
`1 / (n * C(n-1, |S|))`. -/
def shapleyKernel (n k : ℕ) : ℚ :=
  1 / ((n : ℚ) * (Nat.choose (n - 1) k : ℚ))

/-- Modelled from the spec: `combinatorial_montecarlo_shapley` draws for
each index `i` uniformly random subsets `S ⊆ N \ {i}` and accumulates a
running mean of the kernel-weighted marginal contributions
`u(S ∪ {i}) - u(S)`; `max_iterations = 0` is rejected as a configuration
error before any sampling.  `samples i` is the sequence of subsets a run
draws for index `i`. -/
def combinatorial_montecarlo_shapley {n : ℕ} (u : Finset (Fin n) → ℚ)
    (max_iterations : ℕ) (samples : Fin n → List (Finset (Fin n))) :
    Except String (Fin n → ℚ) :=
  if max_iterations = 0 then .error configurationError
  else .ok fun i =>
    (((samples i).map fun S => shapleyKernel n S.card * (u (insert i S) - u S)).sum) /
      (samples i).length

/-- Modelled from the spec: the truncated marginal contribution — once
the running utility of the walked prefix is within `tol` of the full-set
utility, the remaining players' marginal contributions are treated as
zero. -/
def truncatedMarginal {n : ℕ} (u : Finset (Fin n) → ℚ) (tol : ℚ)
    (l : List (Fin n)) (i : Fin n) : ℚ :=
  if |u (playersBefore l i).toFinset - u Finset.univ| ≤ tol then 0
  else marginal u l i

/-- Modelled from the spec: `truncated_montecarlo_shapley` is
permutation Monte Carlo with diminishing-returns truncation of each
permutation walk; `max_iterations = 0` is rejected as a configuration
error before any sampling. -/
def truncated_montecarlo_shapley {n : ℕ} (u : Finset (Fin n) → ℚ)
    (max_iterations : ℕ) (tol : ℚ) (perms : List (List (Fin n))) :
    Except String (Fin n → ℚ) :=
  if max_iterations = 0 then .error configurationError
  else .ok fun i => ((perms.map fun l => truncatedMarginal u tol l i).sum) / perms.length

/-- Modelled from the spec: `owen_sampling_shapley` samples for each
index `i` a probability `q` and a Bernoulli-`q` subset `S` of the
remaining indices and averages the marginal contributions
`u(S ∪ {i}) - u(S)`; `max_iterations = 0` is rejected as a configuration
error before any sampling.  `samples i` is the sequence of `(q, S)`
draws for index `i`. -/
def owen_sampling_shapley {n : ℕ} (u : Finset (Fin n) → ℚ)
    (max_iterations : ℕ) (samples : Fin n → List (ℚ × Finset (Fin n))) :
    Except String (Fin n → ℚ) :=
  if max_iterations = 0 then .error configurationError
  else .ok fun i =>
    (((samples i).map fun qS => u (insert i qS.2) - u qS.2).sum) / (samples i).length

/-! ## Concrete instances used by the witnesses -/

/-- A concrete two-player utility: the cardinality of the coalition. -/
def cardUtility : Finset (Fin 2) → ℚ := fun S => (S.card : ℚ)

/-- The two permutations of the two players. -/
def twoPerms : List (List (Fin 2)) := [[0, 1], [1, 0]]

/-- A possible sample path of the combinatorial estimator at
`max_iterations = 4`: for each index, every one of the four drawn
subsets is empty. -/
def emptySubsetDraws : Fin 2 → List (Finset (Fin 2)) := fun _ => [∅, ∅, ∅, ∅]

/-- The analogous all-empty sample path at `max_iterations = 8`. -/
def emptySubsetDraws8 : Fin 2 → List (Finset (Fin 2)) :=
  fun _ => [∅, ∅, ∅, ∅, ∅, ∅, ∅, ∅]

/-- The value vector a combinatorial Monte Carlo run over `cardUtility`
reduces the given subset draws to (the estimator's per-index running
mean of kernel-weighted marginal contributions). -/
def combinatorialRunEstimate (samples : Fin 2 → List (Finset (Fin 2))) :
    Fin 2 → ℚ :=
  fun i =>
    (((samples i).map fun S =>
        shapleyKernel 2 S.card * (cardUtility (insert i S) - cardUtility S)).sum) /
      (samples i).length

/-- A concrete callable for the witnesses of the keyword-argument
claims: it accepts the keyword parameter `x` and returns the number of
positional plus keyword arguments it was called with. -/
def countArgsFn : PyFunction Int Nat :=
  ⟨["x"], fun args kwargs => args.length + kwargs.length⟩

/-- A concrete callee that mutates its arguments: on arguments `a`, `k`
and seed `s` it returns `a + k + s` and leaves both arguments
incremented. -/
def mutatingFn : Int → Int → Int → Int × Int × Int :=
  fun a k s => (a + k + s, a + 1, k + 1)

/-- The same callee without the mutation. -/
def pureFn : Int → Int → Int → Int × Int × Int :=
  fun a k s => (a + k + s, a, k)

/-! ## Helper lemmas: telescoping of permutation marginal contributions -/

theorem playersBefore_cons_self {n : ℕ} (x : Fin n) (rest : List (Fin n)) :
    playersBefore (x :: rest) x = [] := by
  simp [playersBefore]

theorem playersBefore_cons_of_ne {n : ℕ} (x i : Fin n) (rest : List (Fin n))
    (h : i ≠ x) : playersBefore (x :: rest) i = x :: playersBefore rest i := by
  simp [playersBefore, List.takeWhile_cons, Ne.symm h]

theorem marginal_cons {n : ℕ} (u : Finset (Fin n) → ℚ) (x : Fin n)
    (rest : List (Fin n)) (i : Fin n) (hx : i ≠ x) (hi : i ∈ rest) :
    marginal u (x :: rest) i = marginal (fun S => u (insert x S)) rest i := by
  rw [marginal, marginal, if_pos (List.mem_cons_of_mem x hi), if_pos hi,
    playersBefore_cons_of_ne x i rest hx, List.toFinset_cons, Finset.Insert.comm]

theorem sum_marginal_of_nodup {n : ℕ} :
    ∀ (l : List (Fin n)) (u : Finset (Fin n) → ℚ), l.Nodup →
      (l.map fun i => marginal u l i).sum = u l.toFinset - u ∅
  | [], u, _ => by simp
  | x :: rest, u, h => by
    have hx : x ∉ rest := (List.nodup_cons.mp h).1
    have hrest : rest.Nodup := (List.nodup_cons.mp h).2
    have hmap : (rest.map fun i => marginal u (x :: rest) i)
        = rest.map fun i => marginal (fun S => u (insert x S)) rest i :=
      List.map_congr_left fun i hi =>
        marginal_cons u x rest i (fun he => hx (he ▸ hi)) hi
    have hhead : marginal u (x :: rest) x = u (insert x ∅) - u ∅ := by
      rw [marginal, if_pos (List.mem_cons_self x rest), playersBefore_cons_self,
        List.toFinset_nil]
    rw [List.map_cons, List.sum_cons, hhead, hmap,
      sum_marginal_of_nodup rest (fun S => u (insert x S)) hrest,
      List.toFinset_cons]
    ring

theorem sum_univ_marginal {n : ℕ} (u : Finset (Fin n) → ℚ) (l : List (Fin n))
    (hnd : l.Nodup) (hcov : l.toFinset = Finset.univ) :
    ∑ i, marginal u l i = u Finset.univ - u ∅ :=
  calc ∑ i, marginal u l i
      = ∑ i in l.toFinset, marginal u l i := by rw [hcov]
    _ = (l.map fun i => marginal u l i).sum := List.sum_toFinset _ hnd
    _ = u l.toFinset - u ∅ := sum_marginal_of_nodup l u hnd
    _ = u Finset.univ - u ∅ := by rw [hcov]

theorem sum_univ_listsum {n : ℕ} (g : List (Fin n) → Fin n → ℚ) :
    ∀ perms : List (List (Fin n)),
      (∑ i, (perms.map fun l => g l i).sum)
        = (perms.map fun l => ∑ i, g l i).sum
  | [] => by simp
  | l :: rest => by
    simp only [List.map_cons, List.sum_cons]
    rw [Finset.sum_add_distrib, sum_univ_listsum g rest]

theorem listsum_const {α : Type _} (c : ℚ) :
    ∀ (l : List α) (h : α → ℚ), (∀ x ∈ l, h x = c) →
      (l.map h).sum = l.length * c
  | [], _, _ => by simp
  | x :: rest, h, hall => by
    rw [List.map_cons, List.sum_cons, hall x (List.mem_cons_self x rest),
      listsum_const c rest h fun y hy => hall y (List.mem_cons_of_mem x hy),
      List.length_cons]
    push_cast
    ring

/-! ## Helper lemma: the Hoeffding tail bound meets `delta` exactly above
the real-valued sample bound -/

theorem hoeffdingTail_le_iff (delta eps r : ℝ) (m : ℤ)
    (hd : 0 < delta) (he : 0 < eps) (hr : 0 < r) :
    hoeffdingTail m eps r ≤ delta ↔
      r ^ 2 * Real.log (2 / delta) / (2 * eps ^ 2) ≤ (m : ℝ) := by
  have hr2 : (0:ℝ) < r ^ 2 := by positivity
  have he2 : (0:ℝ) < 2 * eps ^ 2 := by positivity
  have hd2 : (0:ℝ) < delta / 2 := by positivity
  rw [hoeffdingTail, mul_comm (2:ℝ) (Real.exp _), ← le_div_iff₀ two_pos,
    ← Real.le_log_iff_exp_le hd2, Real.log_div (ne_of_gt hd) two_ne_zero,
    Real.log_div two_ne_zero (ne_of_gt hd), div_le_iff₀ hr2, div_le_iff₀ he2]
  constructor <;> intro h <;> nlinarith [h]

/-! ## Claim theorems -/

/-- C1: for every `delta` in `(0,1)`, `eps > 0` and `score_range > 0`,
`lower_bound_hoeffding(delta, eps, score_range)` returns
`ceil((score_range^2 * ln(2/delta)) / (2 * eps^2))`, and this is the
minimum sample count `m` for which the two-sided Hoeffding bound on the
probability that a bounded-range Monte Carlo mean deviates from the true
value by more than `eps` is at most `delta`. -/
theorem lower_bound_hoeffding_correct (delta eps score_range : ℝ)
    (hd0 : 0 < delta) (hd1 : delta < 1) (he : 0 < eps) (hr : 0 < score_range) :
    lower_bound_hoeffding delta eps score_range
        = ⌈score_range ^ 2 * Real.log (2 / delta) / (2 * eps ^ 2)⌉ ∧
      hoeffdingTail (lower_bound_hoeffding delta eps score_range) eps score_range
        ≤ delta ∧
      ∀ m : ℤ, hoeffdingTail m eps score_range ≤ delta →
        lower_bound_hoeffding delta eps score_range ≤ m := by
  refine ⟨rfl, ?_, ?_⟩
  · rw [hoeffdingTail_le_iff delta eps score_range _ hd0 he hr]
    exact Int.le_ceil _
  · intro m hm
    rw [hoeffdingTail_le_iff delta eps score_range m hd0 he hr] at hm
    exact Int.ceil_le.mpr hm

/-- Witness for C1 at `delta = 1/2`, `eps = 1`, `score_range = 1`. -/
theorem lower_bound_hoeffding_correct_witness :
    lower_bound_hoeffding (1/2) 1 1
        = ⌈(1:ℝ) ^ 2 * Real.log (2 / (1/2)) / (2 * 1 ^ 2)⌉ ∧
      hoeffdingTail (lower_bound_hoeffding (1/2) 1 1) 1 1 ≤ 1/2 ∧
      ∀ m : ℤ, hoeffdingTail m 1 1 ≤ 1/2 → lower_bound_hoeffding (1/2) 1 1 ≤ m :=
  lower_bound_hoeffding_correct (1/2) 1 1 (by norm_num) (by norm_num)
    (by norm_num) (by norm_num)

/-- C7: `lower_bound_hoeffding(delta=0.01, eps=0.1, score_range=1)` is a
positive integer, and for every fixed `score_range` the returned value
decreases monotonically as `eps` increases or as `delta` increases. -/
theorem lower_bound_hoeffding_sanity (d d₂ e e₂ r : ℝ)
    (hd : 0 < d) (hdd : d ≤ d₂) (hd1 : d₂ < 1) (he : 0 < e) (hee : e ≤ e₂) :
    0 < lower_bound_hoeffding (1/100) (1/10) 1 ∧
      lower_bound_hoeffding d e₂ r ≤ lower_bound_hoeffding d e r ∧
      lower_bound_hoeffding d₂ e r ≤ lower_bound_hoeffding d e r := by
  refine ⟨?_, ?_, ?_⟩
  · have hlogpos : (0:ℝ) < Real.log (2 / (1/100)) := Real.log_pos (by norm_num)
    have hx : (0:ℝ) < (1:ℝ) ^ 2 * Real.log (2 / (1/100)) / (2 * (1/10) ^ 2) := by
      rw [one_pow, one_mul]
      exact div_pos hlogpos (by norm_num)
    exact Int.ceil_pos.mpr hx
  · have hL : (0:ℝ) ≤ Real.log (2 / d) := by
      refine Real.log_nonneg ?_
      rw [le_div_iff₀ hd, one_mul]
      linarith
    have hnum : (0:ℝ) ≤ r ^ 2 * Real.log (2 / d) := mul_nonneg (sq_nonneg r) hL
    have he2 : (0:ℝ) < 2 * e ^ 2 := by positivity
    have hden : 2 * e ^ 2 ≤ 2 * e₂ ^ 2 := by nlinarith
    exact Int.ceil_mono (div_le_div_of_nonneg_left hnum he2 hden)
  · have hd₂ : (0:ℝ) < d₂ := lt_of_lt_of_le hd hdd
    have hlog : Real.log (2 / d₂) ≤ Real.log (2 / d) := by
      rw [Real.log_le_log_iff (by positivity) (by positivity)]
      exact div_le_div_of_nonneg_left (by norm_num) hd hdd
    have hnum : r ^ 2 * Real.log (2 / d₂) ≤ r ^ 2 * Real.log (2 / d) :=
      mul_le_mul_of_nonneg_left hlog (sq_nonneg r)
    exact Int.ceil_mono (div_le_div_of_nonneg_right hnum (by positivity))

/-- Witness for C7 at `d = 1/2`, `d₂ = 3/4`, `e = 1`, `e₂ = 2`, `r = 1`. -/
theorem lower_bound_hoeffding_sanity_witness :
    0 < lower_bound_hoeffding (1/100) (1/10) 1 ∧
      lower_bound_hoeffding (1/2) 2 1 ≤ lower_bound_hoeffding (1/2) 1 1 ∧
      lower_bound_hoeffding (3/4) 1 1 ≤ lower_bound_hoeffding (1/2) 1 1 :=
  lower_bound_hoeffding_sanity (1/2) (3/4) 1 2 1 (by norm_num) (by norm_num)
    (by norm_num) (by norm_num) (by norm_num)

/-- C2: `ensure_seed_sequence` returns a `SeedSequence` for every
accepted input: a `SeedSequence` is returned as is, a `Generator` yields
the seed sequence extracted from its bit generator, and an int or `None`
yields a newly constructed `SeedSequence` over that value. -/
theorem ensure_seed_sequence_correct (s : SeedSequence) (g : Generator) (k : Int) :
    ensure_seed_sequence (some (SeedLike.seedSeq s)) = s ∧
      ensure_seed_sequence (some (SeedLike.generator g)) = g.bit_generator.seed_seq ∧
      ensure_seed_sequence (some (SeedLike.int k)) = SeedSequence.mk (some k) ∧
      ensure_seed_sequence none = SeedSequence.mk none :=
  ⟨rfl, rfl, rfl, rfl⟩

/-- C10: `ensure_seed_sequence` is idempotent — feeding its result back
in (as a `SeedSequence` input) returns that very result. -/
theorem ensure_seed_sequence_idempotent (seed : Option SeedLike) :
    ensure_seed_sequence (some (SeedLike.seedSeq (ensure_seed_sequence seed)))
      = ensure_seed_sequence seed :=
  rfl

/-- C3: `call_fn_multiple_seeds` calls `fn` once per seed and returns
the tuple of results in the order of the given seeds, each call
receiving the corresponding seed (and the caller's argument values, via
deep copies). -/
theorem call_fn_multiple_seeds_correct {A K R σ : Type _}
    (fn : A → K → σ → R × A × K) (args : A) (kwargs : K) (seeds : List σ) :
    (call_fn_multiple_seeds fn args kwargs seeds).1
        = seeds.map (fun s => (fn args kwargs s).1) ∧
      (call_fn_multiple_seeds fn args kwargs seeds).1.length = seeds.length :=
  ⟨rfl, by simp [call_fn_multiple_seeds]⟩

/-- C9: `call_fn_multiple_seeds` leaves the caller's `args` and `kwargs`
unchanged, and its results do not depend on the mutations `fn` performs
on the (deep-copied) arguments it receives: two callees with the same
value behaviour but different mutation behaviour produce identical
outcomes. -/
theorem call_fn_multiple_seeds_frame {A K R σ : Type _}
    (f g : A → K → σ → R × A × K) (args : A) (kwargs : K) (seeds : List σ)
    (h : ∀ a k s, (f a k s).1 = (g a k s).1) :
    (call_fn_multiple_seeds f args kwargs seeds).2 = (args, kwargs) ∧
      call_fn_multiple_seeds f args kwargs seeds
        = call_fn_multiple_seeds g args kwargs seeds := by
  constructor
  · rfl
  · unfold call_fn_multiple_seeds
    have hmap : (seeds.map fun s => (f (deepcopy args) (deepcopy kwargs) s).1)
        = seeds.map fun s => (g (deepcopy args) (deepcopy kwargs) s).1 :=
      List.map_congr_left fun s _ => h _ _ s
    rw [hmap]

/-- Witness for C9: a callee that increments both of its arguments and
one that leaves them alone produce the same outcome, and the caller's
arguments are untouched. -/
theorem call_fn_multiple_seeds_frame_witness :
    (call_fn_multiple_seeds mutatingFn 0 10 [1, 2, 3]).2 = (0, 10) ∧
      call_fn_multiple_seeds mutatingFn 0 10 [1, 2, 3]
        = call_fn_multiple_seeds pureFn 0 10 [1, 2, 3] :=
  call_fn_multiple_seeds_frame mutatingFn pureFn 0 10 [1, 2, 3]
    fun _ _ _ => rfl

/-- C4: for a class whose metaclass is `NoPublicConstructor`, every
direct instantiation raises a `TypeError` before any instance is created
(the outcome never is an instance and never touches the construction
path), while `create` delegates to the normal construction path and
returns an instance. -/
theorem noPublicConstructor_correct {V α : Type _} (cls : PyClass V α)
    (args : List V) :
    (∀ a : α, NoPublicConstructor.directCall cls args ≠ .ok a) ∧
      NoPublicConstructor.directCall cls args
        = .error (cls.modName ++ "." ++ cls.qualName ++
            " cannot be initialized directly. Use the proper factory instead.") ∧
      (∀ construct' : List V → α,
        NoPublicConstructor.directCall ⟨cls.modName, cls.qualName, construct'⟩ args
          = NoPublicConstructor.directCall cls args) ∧
      NoPublicConstructor.create cls args = .ok (cls.construct args) := by
  refine ⟨?_, rfl, fun _ => rfl, rfl⟩
  intro a h
  simp [NoPublicConstructor.directCall] at h

/-- C8: `maybe_add_argument` returns `fun` itself when it already
accepts the keyword parameter `new_arg`; otherwise it returns a wrapper
that, called with `new_arg = v`, forwards the positional arguments and
the keyword arguments with `new_arg` removed, and, called without
`new_arg`, forwards the arguments unchanged. -/
theorem maybe_add_argument_correct {V R : Type _} (f : PyFunction V R)
    (new_arg : String) (args : List V) (kwargs : List (String × V)) (v : V)
    (hk : ∀ p ∈ kwargs, p.1 ≠ new_arg) :
    (fn_accepts_param_name f new_arg = true → maybe_add_argument f new_arg = f) ∧
      (fn_accepts_param_name f new_arg = false →
        (maybe_add_argument f new_arg).call args ((new_arg, v) :: kwargs)
            = f.call args kwargs ∧
          (maybe_add_argument f new_arg).call args kwargs = f.call args kwargs) := by
  constructor
  · intro hacc
    rw [maybe_add_argument, if_pos hacc]
  · intro hacc
    have herase : kwargs.eraseP (fun p => p.1 == new_arg) = kwargs :=
      List.eraseP_eq_self_iff.mpr fun p hp => by simp [hk p hp]
    constructor
    · rw [maybe_add_argument, if_neg (by simp [hacc])]
      show call_fun_remove_arg args f new_arg ((new_arg, v) :: kwargs) = _
      rw [call_fun_remove_arg, List.eraseP_cons_of_pos (by simp)]
    · rw [maybe_add_argument, if_neg (by simp [hacc])]
      show call_fun_remove_arg args f new_arg kwargs = _
      rw [call_fun_remove_arg, herase]

/-- Witness for C8 at the concrete callable `countArgsFn` (which does
not accept the keyword parameter `seed`). -/
theorem maybe_add_argument_correct_witness :
    (fn_accepts_param_name countArgsFn "seed" = true →
        maybe_add_argument countArgsFn "seed" = countArgsFn) ∧
      (fn_accepts_param_name countArgsFn "seed" = false →
        (maybe_add_argument countArgsFn "seed").call [5] (("seed", 9) :: [("x", 7)])
            = countArgsFn.call [5] [("x", 7)] ∧
          (maybe_add_argument countArgsFn "seed").call [5] [("x", 7)]
            = countArgsFn.call [5] [("x", 7)]) :=
  maybe_add_argument_correct countArgsFn "seed" [5] [("x", 7)] 9 (by decide)

/-- C5 (amended): the value vector returned by every run of the
permutation Monte Carlo estimator over full permutations satisfies the
Shapley efficiency axiom: the sum of all estimated values equals
`u(full_set) - u(∅)` — exactly, hence within every nonnegative absolute
tolerance.  (An individual run of a subset-sampling estimator need not
satisfy the axiom within any fixed tolerance; see the counterexample.) -/
theorem montecarlo_shapley_efficiency {n : ℕ} (u : Finset (Fin n) → ℚ)
    (max_iterations : ℕ) (perms : List (List (Fin n)))
    (hm : max_iterations ≠ 0) (hlen : perms.length = max_iterations)
    (hperms : ∀ l ∈ perms, l.Nodup ∧ l.toFinset = Finset.univ) :
    permutation_montecarlo_shapley u max_iterations perms
        = Except.ok (permutationShapleyEstimate u perms) ∧
      ∀ tol : ℚ, 0 ≤ tol →
        |(∑ i, permutationShapleyEstimate u perms i)
            - (u Finset.univ - u ∅)| ≤ tol := by
  have hok : permutation_montecarlo_shapley u max_iterations perms
      = Except.ok (permutationShapleyEstimate u perms) := by
    rw [permutation_montecarlo_shapley, if_neg hm]
  refine ⟨hok, ?_⟩
  intro tol htol
  have hsum : (∑ i, permutationShapleyEstimate u perms i)
      = u Finset.univ - u ∅ := by
    unfold permutationShapleyEstimate
    rw [← Finset.sum_div, sum_univ_listsum (marginal u) perms,
      listsum_const (u Finset.univ - u ∅) perms _
        (fun l hl => sum_univ_marginal u l (hperms l hl).1 (hperms l hl).2)]
    have hlen0 : ((perms.length : ℚ)) ≠ 0 := by
      have hne : perms.length ≠ 0 := by rw [hlen]; exact hm
      exact_mod_cast hne
    rw [mul_comm, mul_div_assoc, div_self hlen0, mul_one]
  rw [hsum, sub_self, abs_zero]
  exact htol

/-- Witness for C5 at the two-player cardinality utility, run over both
permutations. -/
theorem montecarlo_shapley_efficiency_witness :
    permutation_montecarlo_shapley cardUtility 2 twoPerms
        = Except.ok (permutationShapleyEstimate cardUtility twoPerms) ∧
      ∀ tol : ℚ, 0 ≤ tol →
        |(∑ i, permutationShapleyEstimate cardUtility twoPerms i)
            - (cardUtility Finset.univ - cardUtility ∅)| ≤ tol :=
  montecarlo_shapley_efficiency cardUtility 2 twoPerms (by decide) (by decide)
    (by decide)

/-- C5 counterexample: the claim as stated quantifies over every
estimator run.  A combinatorial Monte Carlo run over the two-player
cardinality utility whose sampled subsets are all empty returns a value
vector summing to `1`, while `u(full_set) - u(∅) = 2` — a deviation of
`1` at `max_iterations = 4` and equally at `max_iterations = 8`, so no
absolute tolerance that shrinks as `max_iterations` grows covers every
run (in particular the deviation is not within `1/2`). -/
theorem montecarlo_efficiency_counterexample :
    (combinatorial_montecarlo_shapley cardUtility 4 emptySubsetDraws
        = Except.ok (combinatorialRunEstimate emptySubsetDraws) ∧
      combinatorial_montecarlo_shapley cardUtility 8 emptySubsetDraws8
        = Except.ok (combinatorialRunEstimate emptySubsetDraws8)) ∧
      |(∑ i, combinatorialRunEstimate emptySubsetDraws i)
          - (cardUtility Finset.univ - cardUtility ∅)| = 1 ∧
      |(∑ i, combinatorialRunEstimate emptySubsetDraws8 i)
          - (cardUtility Finset.univ - cardUtility ∅)| = 1 ∧
      ¬ |(∑ i, combinatorialRunEstimate emptySubsetDraws i)
          - (cardUtility Finset.univ - cardUtility ∅)| ≤ 1/2 := by
  have h4 : (∑ i, combinatorialRunEstimate emptySubsetDraws i) = 1 := by
    rw [Fin.sum_univ_two]
    norm_num [combinatorialRunEstimate, emptySubsetDraws, cardUtility, shapleyKernel]
  have h8 : (∑ i, combinatorialRunEstimate emptySubsetDraws8 i) = 1 := by
    rw [Fin.sum_univ_two]
    norm_num [combinatorialRunEstimate, emptySubsetDraws8, cardUtility, shapleyKernel]
  have hu : cardUtility Finset.univ - cardUtility ∅ = 2 := by
    norm_num [cardUtility, Finset.card_univ]
  have habs : |(1:ℚ) - 2| = 1 := by
    rw [show ((1:ℚ) - 2) = -1 by norm_num, abs_neg, abs_one]
  refine ⟨⟨rfl, rfl⟩, ?_, ?_, ?_⟩
  · rw [h4, hu, habs]
  · rw [h8, hu, habs]
  · rw [h4, hu, habs]
    norm_num

/-- C6: every estimator (permutation, combinatorial,
truncated-permutation, Owen) called with `max_iterations = 0` is
rejected as a configuration error before any sampling begins: the
outcome is the error and is the same whatever the utility and the random
draws, so no utility evaluation takes place. -/
theorem estimators_reject_zero_iterations {n : ℕ}
    (u u' : Finset (Fin n) → ℚ) (perms perms' : List (List (Fin n)))
    (subsets subsets' : Fin n → List (Finset (Fin n))) (tol tol' : ℚ)
    (owenDraws owenDraws' : Fin n → List (ℚ × Finset (Fin n))) :
    (permutation_montecarlo_shapley u 0 perms = .error configurationError ∧
      permutation_montecarlo_shapley u 0 perms
        = permutation_montecarlo_shapley u' 0 perms') ∧
      (combinatorial_montecarlo_shapley u 0 subsets = .error configurationError ∧
        combinatorial_montecarlo_shapley u 0 subsets
          = combinatorial_montecarlo_shapley u' 0 subsets') ∧
      (truncated_montecarlo_shapley u 0 tol perms = .error configurationError ∧
        truncated_montecarlo_shapley u 0 tol perms
          = truncated_montecarlo_shapley u' 0 tol' perms') ∧
      (owen_sampling_shapley u 0 owenDraws = .error configurationError ∧
        owen_sampling_shapley u 0 owenDraws
          = owen_sampling_shapley u' 0 owenDraws') :=
  ⟨⟨rfl, rfl⟩, ⟨rfl, rfl⟩, ⟨rfl, rfl⟩, ⟨rfl, rfl⟩⟩
